import Mathlib

set_option linter.unusedSectionVars false

/-!
Verification of the votekit ballot-generation core
(`src/votekit/ballot_generator.py`, `src/votekit/cleaning.py`).

Candidate identifiers are modelled by an arbitrary type `α` with decidable
equality; a Python `set` of candidates becomes a `Finset α` (candidate
identifiers are treated as atomic, so `set(cand)` wraps a candidate into a
singleton block).  Exact rationals (`fractions.Fraction`) become `ℚ`; Python
floats are also modelled by `ℚ`, i.e. real-number arithmetic without rounding
noise.  Python dicts (insertion-ordered) become association lists.
-/

namespace Votekit

variable {α : Type} [DecidableEq α]

/-- Modelled from the spec: the `Ballot` record (module `votekit.ballot` is not
part of the sources).  Per §3 of the design it carries a ranking (ordered
sequence of tied blocks) and an exact-rational weight; the optional metadata
fields (`voter_set`, `id`, `scores`) play no role in the claims below and are
omitted. -/
structure Ballot (α : Type) where
  ranking : List (Finset α)
  weight : ℚ
deriving DecidableEq

/-- Modelled from the spec: the `PreferenceProfile` record (module
`votekit.profile` is not part of the sources).  It stores an ordered collection
of ballots and "a fixed set of candidate identifiers"; constructors that are
given an explicit candidate collection store it as-is. -/
structure PreferenceProfile (α : Type) where
  ballots : List (Ballot α)
  candidates : Finset α
deriving DecidableEq

/-- Modelled from the spec: when a `PreferenceProfile` is built without an
explicit candidate collection, the candidates are "derived as the union of all
candidates mentioned across ballots' rankings" (§3; our ballots carry no
scores). -/
def derivedCandidates (ballots : List (Ballot α)) : Finset α :=
  ballots.foldr (fun b acc => b.ranking.foldr (fun blk a2 => blk ∪ a2) acc) ∅

/-- One step of building the Python dict `ranking_counts`: bump the count of
an existing key. -/
def bumpCount (r : List α) (acc : List (List α × ℕ)) : List (List α × ℕ) :=
  acc.map (fun p => if p.1 = r then (p.1, p.2 + 1) else p)

/-- `ranking_counts[tuple_rank] = ranking_counts[tuple_rank] + 1 if tuple_rank
in ranking_counts else 1`, on an insertion-ordered association list. -/
def rankingCountsStep (acc : List (List α × ℕ)) (r : List α) :
    List (List α × ℕ) :=
  if acc.any (fun p => decide (p.1 = r)) then bumpCount r acc else acc ++ [(r, 1)]

/-- The first loop of `Ballot_Generator.ballot_pool_to_profile`: occurrence
counts of each ranking, in first-insertion order. -/
def rankingCounts (pool : List (List α)) : List (List α × ℕ) :=
  pool.foldl rankingCountsStep []

/-- `rank = [set(cand) for cand in ranking]` with candidates treated as atomic
identifiers: each candidate becomes a singleton tied block. -/
def toSetRanking (r : List α) : List (Finset α) :=
  r.map (fun c => {c})

/-- `Ballot_Generator.ballot_pool_to_profile`: fold a pool of rankings into a
profile, one ballot per distinct ranking, weighted by its occurrence count. -/
def ballot_pool_to_profile (pool : List (List α)) (cands : List α) :
    PreferenceProfile α :=
  ⟨(rankingCounts pool).map (fun p => ⟨toSetRanking p.1, (p.2 : ℚ)⟩),
    cands.toFinset⟩

/-- Total ballot weight of a profile. -/
def totalWeight (pp : PreferenceProfile α) : ℚ :=
  (pp.ballots.map (fun b => b.weight)).sum

/-- Keys of the association list, in order. -/
def keysOf (acc : List (List α × ℕ)) : List (List α) :=
  acc.map Prod.fst

/-- Sum of the stored counts. -/
def sumCounts (acc : List (List α × ℕ)) : ℕ :=
  (acc.map Prod.snd).sum

lemma keysOf_cons (p : List α × ℕ) (rest : List (List α × ℕ)) :
    keysOf (p :: rest) = p.1 :: keysOf rest := rfl

lemma sumCounts_cons (p : List α × ℕ) (rest : List (List α × ℕ)) :
    sumCounts (p :: rest) = p.2 + sumCounts rest := by
  simp [sumCounts]

lemma keysOf_bumpCount (r : List α) (acc : List (List α × ℕ)) :
    keysOf (bumpCount r acc) = keysOf acc := by
  induction acc with
  | nil => rfl
  | cons p rest ih =>
      simp only [bumpCount, keysOf, List.map_cons] at *
      by_cases h : p.1 = r <;> simp [h, ih]

lemma any_key_iff (acc : List (List α × ℕ)) (r : List α) :
    (acc.any (fun p => decide (p.1 = r)) = true) ↔ r ∈ keysOf acc := by
  simp [keysOf, List.any_eq_true, List.mem_map]

lemma keysOf_step (acc : List (List α × ℕ)) (r : List α) :
    keysOf (rankingCountsStep acc r) =
      if r ∈ keysOf acc then keysOf acc else keysOf acc ++ [r] := by
  by_cases h : r ∈ keysOf acc
  · rw [rankingCountsStep, if_pos ((any_key_iff acc r).mpr h), if_pos h,
      keysOf_bumpCount]
  · rw [rankingCountsStep,
      if_neg (fun hc => h ((any_key_iff acc r).mp hc)), if_neg h]
    simp [keysOf]

lemma nodup_keysOf_step (acc : List (List α × ℕ)) (r : List α)
    (h : (keysOf acc).Nodup) : (keysOf (rankingCountsStep acc r)).Nodup := by
  rw [keysOf_step]
  by_cases hm : r ∈ keysOf acc
  · simpa [hm] using h
  · rw [if_neg hm, List.nodup_append]
    refine ⟨h, List.nodup_singleton r, ?_⟩
    intro x hx hx2
    rw [List.mem_singleton] at hx2
    exact hm (hx2 ▸ hx)

lemma bumpCount_of_not_mem (r : List α) (acc : List (List α × ℕ))
    (h : r ∉ keysOf acc) : bumpCount r acc = acc := by
  induction acc with
  | nil => rfl
  | cons p rest ih =>
      rw [keysOf_cons, List.mem_cons] at h
      push_neg at h
      have h1 : ¬ p.1 = r := fun he => h.1 he.symm
      simp only [bumpCount, List.map_cons, if_neg h1]
      have := ih h.2
      rw [bumpCount] at this
      rw [this]

lemma sumCounts_bumpCount (r : List α) (acc : List (List α × ℕ))
    (hnd : (keysOf acc).Nodup) (hm : r ∈ keysOf acc) :
    sumCounts (bumpCount r acc) = sumCounts acc + 1 := by
  induction acc with
  | nil => simp [keysOf] at hm
  | cons p rest ih =>
      rw [keysOf_cons, List.nodup_cons] at hnd
      rw [keysOf_cons, List.mem_cons] at hm
      by_cases h : p.1 = r
      · have hrest : r ∉ keysOf rest := fun hc => hnd.1 (h ▸ hc)
        have hb : bumpCount r (p :: rest) = (p.1, p.2 + 1) :: rest := by
          have h2 := bumpCount_of_not_mem r rest hrest
          rw [bumpCount, List.map_cons, if_pos h]
          rw [bumpCount] at h2
          rw [h2]
        rw [hb, sumCounts_cons, sumCounts_cons]
        omega
      · have hm' : r ∈ keysOf rest := by
          rcases hm with h1 | h1
          · exact absurd h1.symm h
          · exact h1
        have hb : bumpCount r (p :: rest) = p :: bumpCount r rest := by
          rw [bumpCount, List.map_cons, if_neg h]; rfl
        rw [hb, sumCounts_cons, sumCounts_cons, ih hnd.2 hm']
        omega

lemma sumCounts_step (acc : List (List α × ℕ)) (r : List α)
    (hnd : (keysOf acc).Nodup) :
    sumCounts (rankingCountsStep acc r) = sumCounts acc + 1 := by
  by_cases h : r ∈ keysOf acc
  · rw [rankingCountsStep, if_pos ((any_key_iff acc r).mpr h)]
    exact sumCounts_bumpCount r acc hnd h
  · rw [rankingCountsStep, if_neg (fun hc => h ((any_key_iff acc r).mp hc))]
    simp [sumCounts]

lemma foldl_step_invariant (pool : List (List α)) :
    ∀ acc : List (List α × ℕ), (keysOf acc).Nodup →
      (keysOf (pool.foldl rankingCountsStep acc)).Nodup ∧
        sumCounts (pool.foldl rankingCountsStep acc) =
          sumCounts acc + pool.length := by
  induction pool with
  | nil => intro acc h; simpa using h
  | cons r rest ih =>
      intro acc h
      have h1 := nodup_keysOf_step acc r h
      obtain ⟨hn, hs⟩ := ih (rankingCountsStep acc r) h1
      refine ⟨hn, ?_⟩
      rw [List.foldl_cons] at *
      rw [hs, sumCounts_step acc r h, List.length_cons]
      omega

lemma rankingCounts_nodup_keys (pool : List (List α)) :
    (keysOf (rankingCounts pool)).Nodup :=
  (foldl_step_invariant pool [] (by simp [keysOf])).1

lemma sumCounts_rankingCounts (pool : List (List α)) :
    sumCounts (rankingCounts pool) = pool.length := by
  have := (foldl_step_invariant pool [] (by simp [keysOf])).2
  simpa [sumCounts] using this

/-- Dict lookup, robust form: sum of the counts stored under key `k`. -/
def lookupCount (acc : List (List α × ℕ)) (k : List α) : ℕ :=
  ((acc.filter (fun p => decide (p.1 = k))).map Prod.snd).sum

lemma lookupCount_cons (p : List α × ℕ) (rest : List (List α × ℕ))
    (k : List α) :
    lookupCount (p :: rest) k =
      (if p.1 = k then p.2 else 0) + lookupCount rest k := by
  by_cases h : p.1 = k <;> simp [lookupCount, List.filter_cons, h]

lemma lookupCount_append_single (acc : List (List α × ℕ)) (r k : List α)
    (n : ℕ) :
    lookupCount (acc ++ [(r, n)]) k =
      lookupCount acc k + (if k = r then n else 0) := by
  by_cases h : r = k <;>
    simp [lookupCount, List.filter_append, List.filter_cons, h, eq_comm]

lemma lookupCount_of_not_mem (acc : List (List α × ℕ)) (k : List α)
    (h : k ∉ keysOf acc) : lookupCount acc k = 0 := by
  induction acc with
  | nil => rfl
  | cons p rest ih =>
      rw [keysOf_cons, List.mem_cons] at h
      push_neg at h
      rw [lookupCount_cons, if_neg (fun he => h.1 he.symm), ih h.2]

lemma lookupCount_bumpCount (acc : List (List α × ℕ)) (r k : List α)
    (hnd : (keysOf acc).Nodup) (hm : r ∈ keysOf acc) :
    lookupCount (bumpCount r acc) k =
      lookupCount acc k + (if k = r then 1 else 0) := by
  induction acc with
  | nil => simp [keysOf] at hm
  | cons p rest ih =>
      rw [keysOf_cons, List.nodup_cons] at hnd
      rw [keysOf_cons, List.mem_cons] at hm
      by_cases h : p.1 = r
      · have hrest : r ∉ keysOf rest := fun hc => hnd.1 (h ▸ hc)
        have hb : bumpCount r (p :: rest) = (p.1, p.2 + 1) :: rest := by
          have h2 := bumpCount_of_not_mem r rest hrest
          rw [bumpCount, List.map_cons, if_pos h]
          rw [bumpCount] at h2
          rw [h2]
        rw [hb, lookupCount_cons, lookupCount_cons]
        by_cases hk : p.1 = k
        · rw [if_pos hk, if_pos hk, if_pos (hk ▸ h ▸ rfl : k = r)]
          omega
        · have : ¬ k = r := fun he => hk (he ▸ h)
          rw [if_neg hk, if_neg hk, if_neg this]
          omega
      · have hm' : r ∈ keysOf rest := by
          rcases hm with h1 | h1
          · exact absurd h1.symm h
          · exact h1
        have hb : bumpCount r (p :: rest) = p :: bumpCount r rest := by
          rw [bumpCount, List.map_cons, if_neg h]; rfl
        rw [hb, lookupCount_cons, lookupCount_cons, ih hnd.2 hm']
        omega

lemma lookupCount_step (acc : List (List α × ℕ)) (r k : List α)
    (hnd : (keysOf acc).Nodup) :
    lookupCount (rankingCountsStep acc r) k =
      lookupCount acc k + (if k = r then 1 else 0) := by
  by_cases h : r ∈ keysOf acc
  · rw [rankingCountsStep, if_pos ((any_key_iff acc r).mpr h)]
    exact lookupCount_bumpCount acc r k hnd h
  · rw [rankingCountsStep, if_neg (fun hc => h ((any_key_iff acc r).mp hc))]
    exact lookupCount_append_single acc r k 1

lemma lookupCount_foldl (pool : List (List α)) :
    ∀ acc : List (List α × ℕ), (keysOf acc).Nodup → ∀ k : List α,
      lookupCount (pool.foldl rankingCountsStep acc) k =
        lookupCount acc k + pool.count k := by
  induction pool with
  | nil => intro acc _ k; simp
  | cons r rest ih =>
      intro acc h k
      rw [List.foldl_cons, ih (rankingCountsStep acc r)
        (nodup_keysOf_step acc r h) k, lookupCount_step acc r k h,
        List.count_cons]
      by_cases hk : k = r
      · simp [hk]
        omega
      · simp [hk]
        exact fun he => hk he.symm

lemma lookupCount_rankingCounts (pool : List (List α)) (k : List α) :
    lookupCount (rankingCounts pool) k = pool.count k := by
  have := lookupCount_foldl pool [] (by simp [keysOf]) k
  simpa [lookupCount] using this

lemma entry_eq_lookupCount (acc : List (List α × ℕ))
    (hnd : (keysOf acc).Nodup) :
    ∀ p ∈ acc, p.2 = lookupCount acc p.1 := by
  induction acc with
  | nil => intro p hp; simp at hp
  | cons q rest ih =>
      rw [keysOf_cons, List.nodup_cons] at hnd
      intro p hp
      rw [List.mem_cons] at hp
      rcases hp with h | h
      · subst h
        rw [lookupCount_cons, if_pos rfl,
          lookupCount_of_not_mem rest p.1 hnd.1]
        omega
      · rw [lookupCount_cons]
        have hne : ¬ q.1 = p.1 := by
          intro he
          exact hnd.1 (he ▸ (List.mem_map.mpr ⟨p, h, rfl⟩))
        rw [if_neg hne, ih hnd.2 p h]
        omega

lemma mem_keys_foldl (pool : List (List α)) :
    ∀ (acc : List (List α × ℕ)) (k : List α),
      k ∈ keysOf (pool.foldl rankingCountsStep acc) →
        k ∈ keysOf acc ∨ k ∈ pool := by
  induction pool with
  | nil => intro acc k h; exact Or.inl h
  | cons r rest ih =>
      intro acc k h
      rw [List.foldl_cons] at h
      rcases ih (rankingCountsStep acc r) k h with h1 | h1
      · rw [keysOf_step] at h1
        by_cases hm : r ∈ keysOf acc
        · rw [if_pos hm] at h1; exact Or.inl h1
        · rw [if_neg hm, List.mem_append, List.mem_singleton] at h1
          rcases h1 with h2 | h2
          · exact Or.inl h2
          · exact Or.inr (h2 ▸ List.mem_cons_self r rest)
      · exact Or.inr (List.mem_cons_of_mem r h1)

lemma rankingCounts_entry (pool : List (List α)) :
    ∀ p ∈ rankingCounts pool, p.2 = pool.count p.1 ∧ p.1 ∈ pool := by
  intro p hp
  constructor
  · rw [entry_eq_lookupCount (rankingCounts pool)
      (rankingCounts_nodup_keys pool) p hp,
      lookupCount_rankingCounts]
  · have hk : p.1 ∈ keysOf (rankingCounts pool) :=
      List.mem_map.mpr ⟨p, hp, rfl⟩
    rcases mem_keys_foldl pool [] p.1 hk with h | h
    · simp [keysOf] at h
    · exact h

lemma toSetRanking_injective :
    Function.Injective (toSetRanking (α := α)) := by
  intro r s h
  exact (List.map_injective_iff.mpr Finset.singleton_injective) h

lemma map_ranking_fold (pool : List (List α)) (cands : List α) :
    (ballot_pool_to_profile pool cands).ballots.map (fun b => b.ranking) =
      (keysOf (rankingCounts pool)).map toSetRanking := by
  simp [ballot_pool_to_profile, keysOf, List.map_map, Function.comp_def]

lemma map_weight_fold (pool : List (List α)) (cands : List α) :
    (ballot_pool_to_profile pool cands).ballots.map (fun b => b.weight) =
      (rankingCounts pool).map (fun p => ((p.2 : ℕ) : ℚ)) := by
  simp [ballot_pool_to_profile, List.map_map, Function.comp_def]

lemma cast_sum_snd (l : List (List α × ℕ)) :
    (l.map (fun p => ((p.2 : ℕ) : ℚ))).sum = ((l.map Prod.snd).sum : ℚ) := by
  induction l with
  | nil => simp
  | cons p rest ih => simp [ih]

/-- C1, core computation: total profile weight equals the pool size. -/
lemma totalWeight_fold (pool : List (List α)) (cands : List α) :
    totalWeight (ballot_pool_to_profile pool cands) = (pool.length : ℚ) := by
  rw [totalWeight, map_weight_fold, cast_sum_snd]
  have h := sumCounts_rankingCounts pool
  rw [sumCounts] at h
  exact_mod_cast h

lemma foldl_step_of_nodup (pool : List (List α)) :
    ∀ acc : List (List α × ℕ), pool.Nodup →
      (∀ r ∈ pool, r ∉ keysOf acc) →
      pool.foldl rankingCountsStep acc = acc ++ pool.map (fun r => (r, 1)) := by
  induction pool with
  | nil => intro acc _ _; simp
  | cons r rest ih =>
      intro acc hnd hdis
      rw [List.nodup_cons] at hnd
      have hr : r ∉ keysOf acc := hdis r (List.mem_cons_self r rest)
      have hstep : rankingCountsStep acc r = acc ++ [(r, 1)] := by
        rw [rankingCountsStep,
          if_neg (fun hc => hr ((any_key_iff acc r).mp hc))]
      rw [List.foldl_cons, hstep,
        ih (acc ++ [(r, 1)]) hnd.2 ?_]
      · simp
      · intro s hs
        rw [keysOf, List.map_append, List.mem_append]
        push_neg
        refine ⟨?_, ?_⟩
        · have := hdis s (List.mem_cons_of_mem r hs)
          simpa [keysOf] using this
        · simp only [List.map_cons, List.map_nil, List.mem_singleton]
          exact fun he => hnd.1 (he ▸ hs)

/-- Folding a duplicate-free pool gives each ranking count 1. -/
lemma rankingCounts_of_nodup (pool : List (List α)) (h : pool.Nodup) :
    rankingCounts pool = pool.map (fun r => (r, 1)) := by
  have := foldl_step_of_nodup pool [] h (by simp [keysOf])
  simpa [rankingCounts] using this

/-- The ranking list of an already-folded profile's ballots, i.e. the
"ballot list" that the idempotence claim feeds back into the folding step. -/
def foldedRankings (pool : List (List α)) (cands : List α) :
    List (List (Finset α)) :=
  (ballot_pool_to_profile pool cands).ballots.map (fun b => b.ranking)

lemma foldedRankings_nodup (pool : List (List α)) (cands : List α) :
    (foldedRankings pool cands).Nodup := by
  rw [foldedRankings, map_ranking_fold]
  exact (rankingCounts_nodup_keys pool).map toSetRanking_injective

lemma map_const_one_rat {β : Type} (l : List β) :
    l.map (fun _ => (1 : ℚ)) = List.replicate l.length 1 := by
  induction l with
  | nil => rfl
  | cons x xs ih => simp [ih, List.replicate_succ]

/-- `remove_empty_ballots` from `src/votekit/cleaning.py`: keep exactly the
ballots whose ranking is non-empty (Python truthiness of a list), in order;
with `keep_candidates` the old candidate collection is reused, otherwise the
profile constructor derives one from the remaining ballots. -/
def remove_empty_ballots (pp : PreferenceProfile α)
    (keep_candidates : Bool) : PreferenceProfile α :=
  let ballots_nonempty := pp.ballots.filter (fun b => !b.ranking.isEmpty)
  if keep_candidates then ⟨ballots_nonempty, pp.candidates⟩
  else ⟨ballots_nonempty, derivedCandidates ballots_nonempty⟩

/-- Inner loop of `BradleyTerry._calc_prob` for a fixed outer position: the
running product is multiplied by `support(c) / (support(c) + support(d))` for
`d` ranging over the tail passed in (the code's `j in range(i, len(ranking))`,
so the tail passed at position `i` starts with the candidate at `i` itself). -/
def pairFactor (support : α → ℚ) (c : α) (tail : List α) : ℚ :=
  tail.foldl (fun acc d => acc * (support c / (support c + support d))) 1

/-- `BradleyTerry._calc_prob`, per ranking: `for i in range(len(ranking)):
for j in range(i, len(ranking)): prob *= s_i / (s_i + s_j)`.  The inner range
starts at `i`, so the diagonal pair `(i, i)` is included; the list recursion
takes the product of the inner-loop blocks, which equals the code's single
running product. -/
def calcProbSingle (support : α → ℚ) : List α → ℚ
  | [] => 1
  | c :: rest => pairFactor support c (c :: rest) * calcProbSingle support rest

/-- `BradleyTerry._calc_prob`: the insertion-ordered dict from each ranking of
the permutation list to its computed probability. -/
def calcProb (permutations : List (List α)) (support : α → ℚ) :
    List (List α × ℚ) :=
  permutations.map (fun r => (r, calcProbSingle support r))

/-- The probability the spec sentence describes: the product over ordered
pairs of positions `i < j` only (candidate at `i` ranked before candidate at
`j`) of `support(i) / (support(i) + support(j))`.  Written from the spec's
words, to be compared with `calcProbSingle`. -/
def calcProbSpecSingle (support : α → ℚ) : List α → ℚ
  | [] => 1
  | c :: rest => pairFactor support c rest * calcProbSpecSingle support rest

lemma foldl_mul_eq_prod {β : Type} (g : β → ℚ) (l : List β) :
    ∀ x : ℚ, l.foldl (fun acc d => acc * g d) x = x * (l.map g).prod := by
  induction l with
  | nil => intro x; simp
  | cons d t ih =>
      intro x
      rw [List.foldl_cons, ih (x * g d), List.map_cons, List.prod_cons,
        mul_assoc]

lemma pairFactor_eq_prod (support : α → ℚ) (c : α) (tail : List α) :
    pairFactor support c tail =
      (tail.map (fun d => support c / (support c + support d))).prod := by
  rw [pairFactor, foldl_mul_eq_prod, one_mul]

lemma pairFactor_cons_self (support : α → ℚ) (c : α) (rest : List α)
    (hc : support c ≠ 0) :
    pairFactor support c (c :: rest) = (1 / 2) * pairFactor support c rest := by
  rw [pairFactor_eq_prod, pairFactor_eq_prod, List.map_cons, List.prod_cons]
  have h2 : support c / (support c + support c) = 1 / 2 := by
    rw [show support c + support c = 2 * support c by ring,
      mul_comm 2 (support c), div_mul_eq_div_div, div_self hc]
  rw [h2]

lemma calcProbSingle_eq_half_pow (support : α → ℚ) (r : List α)
    (h : ∀ c ∈ r, 0 < support c) :
    calcProbSingle support r =
      (1 / 2) ^ r.length * calcProbSpecSingle support r := by
  induction r with
  | nil => simp [calcProbSingle, calcProbSpecSingle]
  | cons c rest ih =>
      have hc : support c ≠ 0 :=
        ne_of_gt (h c (List.mem_cons_self c rest))
      have hrest : ∀ d ∈ rest, 0 < support d :=
        fun d hd => h d (List.mem_cons_of_mem c hd)
      rw [calcProbSingle, calcProbSpecSingle,
        pairFactor_cons_self support c rest hc, ih hrest,
        List.length_cons, pow_succ]
      ring

/-- Python `int()` applied to a rational value: truncation toward zero. -/
def pyInt (q : ℚ) : ℤ :=
  if 0 ≤ q then ⌊q⌋ else ⌈q⌉

/-- `num_ballots_race = int(self.number_of_ballots *
self.slate_voter_prop[race])` in `PlackettLuce.generate_ballots`. -/
def plNumBallotsRace (number_of_ballots : ℕ) (prop : ℚ) : ℕ :=
  (pyInt (number_of_ballots * prop)).toNat

/-- The per-bloc loop of `PlackettLuce.generate_ballots`: `num_ballots_race`
ballots are drawn by weighted sampling without replacement; the random sampler
is abstracted as a function from the draw index to the drawn ranking. -/
def plGenerateBloc (sample : ℕ → List α) (number_of_ballots : ℕ)
    (prop : ℚ) : List (List α) :=
  (List.range (plNumBallotsRace number_of_ballots prop)).map sample

/-- `PlackettLuce`'s configuration record: the fields assigned by
`Ballot_Generator.__init__` plus the two assigned by `PlackettLuce.__init__`.
Slate names are strings; dicts are association lists. -/
structure PlackettLuceConfig (α : Type) where
  number_of_ballots : ℕ
  candidates : List α
  ballot_length : ℕ
  pref_interval_by_slate : List (String × List (α × ℚ))
  slate_voter_prop : List (String × ℚ)
deriving DecidableEq

/-- `PlackettLuce.__init__`: calls the parent initializer (which defaults
`ballot_length` to the candidate count) and assigns
`pref_interval_by_slate` and `slate_voter_prop`.  The body performs no
validation of any kind, so every configuration — consistent or not — is
accepted: the translation always returns `ok`. -/
def plackettLuceInit (pref_interval_by_slate : List (String × List (α × ℚ)))
    (slate_voter_prop : List (String × ℚ)) (number_of_ballots : ℕ)
    (candidates : List α) (ballot_length : Option ℕ) :
    Except String (PlackettLuceConfig α) :=
  .ok ⟨number_of_ballots, candidates, ballot_length.getD candidates.length,
    pref_interval_by_slate, slate_voter_prop⟩

/-- `itertools.permutations(candidates, k)`: all length-`k` permutations of
the list, in itertools' emission order (outer element in list order, then the
permutations of the remaining elements). -/
def permutationsLen : ℕ → List α → List (List α)
  | 0, _ => [[]]
  | k + 1, l =>
      l.flatMap (fun c => (permutationsLen k (l.erase c)).map (fun t => c :: t))

/-- The index pool the IAC sampler draws from:
`np.random.choice(range(6), 1, p=draw_probabilites)` in
`IAC.generate_ballots` — the literal `range(6)`, independent of the number of
enumerated permutations. -/
def iacDrawIndexPool : List ℕ :=
  List.range 6

/-- `crossover_ballots = crossover_rate * num_ballots_race` followed by
`for _ in range(crossover_ballots)` in
`AlternatingCrossover.generate_ballots`: the loop count is the raw product —
`round` is never applied — and Python's `range` rejects a non-integral count
(`TypeError`).  The sampled interleaved ballot is abstracted as a function of
the draw index.  The method has no loyal-ballot branch: these crossover
ballots are all the ballots the bloc pairing contributes. -/
def acPairBallots (sample : ℕ → List α) (crossover_rate : ℚ)
    (num_ballots_race : ℕ) : Except String (List (List α)) :=
  let crossover_ballots : ℚ := crossover_rate * num_ballots_race
  if (⌊crossover_ballots⌋ : ℚ) = crossover_ballots ∧ 0 ≤ crossover_ballots
  then .ok ((List.range ⌊crossover_ballots⌋.toNat).map sample)
  else .error "TypeError: range expects an integer"

/-- `np.random.normal(1, 0, k)` in `OneDimSpatial.generate_ballots`: with
standard deviation 0 the draw is deterministically the constant array of `k`
ones.  Each candidate is assigned such an array of length `len(candidates)`
as its "position" (the size argument is misused). -/
def oneDimCandidatePosition (candidates : List α) : List ℚ :=
  List.replicate candidates.length 1

/-- Voter positions: `np.random.normal(1, 0, number_of_ballots)`, again with
standard deviation 0. -/
def oneDimVoterPositions (number_of_ballots : ℕ) : List ℚ :=
  List.replicate number_of_ballots 1

/-- `abs(v - vp)` where `v` is a candidate's position array: elementwise
distance of the array to the voter position. -/
def oneDimDistance (v : List ℚ) (vp : ℚ) : List ℚ :=
  v.map (fun x => |x - vp|)

end Votekit

/-- C1: for every ballot pool and candidate list, `ballot_pool_to_profile`
returns a profile whose ballots' weights sum to exactly the number of rankings
in the pool, as an exact rational. -/
theorem C1_weight_conservation {α : Type} [DecidableEq α]
    (pool : List (List α)) (cands : List α) :
    Votekit.totalWeight (Votekit.ballot_pool_to_profile pool cands) =
      (pool.length : ℚ) :=
  Votekit.totalWeight_fold pool cands

/-- C7, counterexample: re-folding is not idempotent.  Folding the pool
`[[0], [0]]` yields one ballot of weight 2; feeding that profile's ballot list
(its rankings) back into the folding step produces a profile of total weight 1,
which therefore cannot equal the original (folding counts each ballot as one
unit occurrence, discarding the accumulated weights). -/
theorem C7_counterexample :
    Votekit.totalWeight
        (Votekit.ballot_pool_to_profile [[0], [0]] [0]) = 2 ∧
      Votekit.totalWeight
        (Votekit.ballot_pool_to_profile
          (Votekit.foldedRankings [[0], [0]] [0]) [({0} : Finset ℕ)]) = 1 ∧
      Votekit.totalWeight
          (Votekit.ballot_pool_to_profile
            (Votekit.foldedRankings [[0], [0]] [0]) [({0} : Finset ℕ)]) ≠
        Votekit.totalWeight
          (Votekit.ballot_pool_to_profile [[0], [0]] [0]) := by
  refine ⟨?_, ?_, ?_⟩ <;>
    norm_num [Votekit.totalWeight, Votekit.ballot_pool_to_profile,
      Votekit.rankingCounts, Votekit.rankingCountsStep, Votekit.bumpCount,
      Votekit.foldedRankings, Votekit.toSetRanking]

/-- C7, amended: re-folding an already-folded profile's ballot list preserves
the distinct rankings (each wrapped once more into singleton blocks, in order)
but resets every weight to 1, because the folding step counts occurrences and
ignores existing weights; so the result equals the original only when every
ranking occurred exactly once in the original pool. -/
theorem C7_amended {α : Type} [DecidableEq α]
    (pool : List (List α)) (cands : List α) (cands2 : List (Finset α)) :
    (Votekit.ballot_pool_to_profile
        (Votekit.foldedRankings pool cands) cands2).ballots.map
        (fun b => b.weight) =
      List.replicate
        (Votekit.ballot_pool_to_profile pool cands).ballots.length 1 ∧
    (Votekit.ballot_pool_to_profile
        (Votekit.foldedRankings pool cands) cands2).ballots.map
        (fun b => b.ranking) =
      (Votekit.foldedRankings pool cands).map Votekit.toSetRanking := by
  have hnd := Votekit.foldedRankings_nodup pool cands
  have hrc := Votekit.rankingCounts_of_nodup _ hnd
  constructor
  · rw [Votekit.map_weight_fold, hrc]
    have hlen : (Votekit.foldedRankings pool cands).length =
        (Votekit.ballot_pool_to_profile pool cands).ballots.length := by
      simp [Votekit.foldedRankings]
    rw [List.map_map, ← hlen]
    have hcomp : (Votekit.foldedRankings pool cands).map
        ((fun p : List (Finset α) × ℕ => ((p.2 : ℕ) : ℚ)) ∘
          (fun r => (r, 1))) =
        (Votekit.foldedRankings pool cands).map (fun _ => (1 : ℚ)) := by
      simp [Function.comp_def]
    rw [hcomp, Votekit.map_const_one_rat]
  · rw [Votekit.map_ranking_fold]
    show ((Votekit.rankingCounts (Votekit.foldedRankings pool cands)).map
        Prod.fst).map Votekit.toSetRanking = _
    rw [hrc, List.map_map]
    simp [Function.comp_def]

/-- C9: `remove_empty_ballots` returns a profile whose ballots are exactly the
input's ballots with a non-empty ranking, in input order (the input itself is
untouched: the code deep-copies, and in this functional model inputs are
immutable); with `keep_candidates = true` the input's candidate collection is
kept verbatim. -/
theorem C9_remove_empty_ballots {α : Type} [DecidableEq α]
    (pp : Votekit.PreferenceProfile α) (keep_candidates : Bool) :
    (Votekit.remove_empty_ballots pp keep_candidates).ballots =
        pp.ballots.filter (fun b => !b.ranking.isEmpty) ∧
      (Votekit.remove_empty_ballots pp true).candidates = pp.candidates := by
  cases keep_candidates <;>
    simp [Votekit.remove_empty_ballots]

/-- C10: a folded profile contains at most one ballot per distinct ranking
(its ballots' rankings are pairwise distinct), and every ballot's weight is the
rational image of the number of occurrences of its ranking in the input pool,
a strictly positive natural number. -/
theorem C10_fold_invariants {α : Type} [DecidableEq α]
    (pool : List (List α)) (cands : List α) :
    ((Votekit.ballot_pool_to_profile pool cands).ballots.map
        (fun b => b.ranking)).Nodup ∧
      ∀ b ∈ (Votekit.ballot_pool_to_profile pool cands).ballots,
        ∃ r ∈ pool, b.ranking = Votekit.toSetRanking r ∧
          b.weight = (pool.count r : ℚ) ∧ 0 < pool.count r := by
  constructor
  · rw [Votekit.map_ranking_fold]
    exact (Votekit.rankingCounts_nodup_keys pool).map
      Votekit.toSetRanking_injective
  · intro b hb
    rw [Votekit.ballot_pool_to_profile, List.mem_map] at hb
    obtain ⟨p, hp, hpb⟩ := hb
    obtain ⟨hcount, hmem⟩ := Votekit.rankingCounts_entry pool p hp
    refine ⟨p.1, hmem, ?_, ?_, ?_⟩
    · rw [← hpb]
    · rw [← hpb, ← hcount]
    · exact List.count_pos_iff.mpr hmem

/-- C10, witness: the fold of the concrete pool `[[0], [0]]` satisfies the
invariants, instantiated at its single ballot `⟨[{0}], 2⟩`. -/
theorem C10_fold_invariants_witness :
    ∃ r ∈ [[0], [0]],
      (Votekit.Ballot.mk [({0} : Finset ℕ)] 2).ranking =
          Votekit.toSetRanking r ∧
        (Votekit.Ballot.mk [({0} : Finset ℕ)] 2).weight =
          (([[0], [0]] : List (List ℕ)).count r : ℚ) ∧
        0 < ([[0], [0]] : List (List ℕ)).count r :=
  (C10_fold_invariants [[0], [0]] [0]).2 ⟨[{0}], 2⟩ (by
    norm_num [Votekit.ballot_pool_to_profile, Votekit.rankingCounts,
      Votekit.rankingCountsStep, Votekit.bumpCount, Votekit.toSetRanking])

/-- C2, counterexample: with two candidates of equal support 1, the ranking
`[0, 1]` has claimed probability `1/(1+1) = 1/2`, but `_calc_prob` computes
`1/8` — its inner loop starts at `j = i`, multiplying in the diagonal factor
`s_i/(s_i+s_i) = 1/2` once per position. -/
theorem C2_counterexample :
    Votekit.calcProb [[0, 1]] (fun _ => (1 : ℚ)) = [([0, 1], 1 / 8)] ∧
      Votekit.calcProbSpecSingle (fun _ => (1 : ℚ)) [0, 1] = 1 / 2 ∧
      (1 / 8 : ℚ) ≠ 1 / 2 := by
  refine ⟨?_, ?_, by norm_num⟩ <;>
    norm_num [Votekit.calcProb, Votekit.calcProbSingle,
      Votekit.calcProbSpecSingle, Votekit.pairFactor]

/-- C2, amended: for positive supports, `_calc_prob` assigns to each ranking
`(1/2)^n` times the claimed product over strict pairs `i < j`, the extra
factor coming from the `n` diagonal pairs `j = i` included by
`range(i, len(ranking))`.  (After the per-bloc renormalization in
`generate_ballots` this constant cancels across equal-length rankings.) -/
theorem C2_amended {α : Type} [DecidableEq α]
    (permutations : List (List α)) (support : α → ℚ)
    (h : ∀ r ∈ permutations, ∀ c ∈ r, 0 < support c) :
    Votekit.calcProb permutations support =
      permutations.map (fun r =>
        (r, (1 / 2) ^ r.length * Votekit.calcProbSpecSingle support r)) := by
  rw [Votekit.calcProb]
  refine List.map_congr_left ?_
  intro r hr
  rw [Votekit.calcProbSingle_eq_half_pow support r (h r hr)]

/-- C2, witness for the amended statement at equal support 1 on `[[0, 1]]`. -/
theorem C2_amended_witness :
    Votekit.calcProb [[0, 1]] (fun _ => (1 : ℚ)) =
      [[0, 1]].map (fun r =>
        (r, (1 / 2) ^ r.length *
          Votekit.calcProbSpecSingle (fun _ => (1 : ℚ)) r)) :=
  C2_amended [[0, 1]] (fun _ => (1 : ℚ)) (by intro r hr c hc; norm_num)

/-- C3, counterexample: with 3 requested ballots and a bloc proportion of
1/2, `PlackettLuce.generate_ballots` draws `int(3 * 0.5) = 1` ballot for the
bloc, while nearest-integer rounding of the product gives 2. -/
theorem C3_counterexample :
    (Votekit.plGenerateBloc (fun _ => ([] : List ℕ)) 3 (1 / 2)).length = 1 ∧
      (round ((3 : ℚ) * (1 / 2))).toNat = 2 ∧ (1 : ℕ) ≠ 2 := by
  refine ⟨?_, ?_, by norm_num⟩
  · norm_num [Votekit.plGenerateBloc, Votekit.plNumBallotsRace, Votekit.pyInt]
  · have h2 : round ((3 : ℚ) * (1 / 2)) = 2 := by norm_num [round_eq]
    rw [h2]
    rfl

/-- C3, amended: for every bloc with non-negative proportion `p`, the bloc
loop draws exactly `int(number_of_ballots * p)` ballots — truncation (the
floor, for a non-negative product), not nearest-integer rounding. -/
theorem C3_amended {α : Type} [DecidableEq α] (sample : ℕ → List α)
    (number_of_ballots : ℕ) (prop : ℚ) (h : 0 ≤ prop) :
    (Votekit.plGenerateBloc sample number_of_ballots prop).length =
      (⌊(number_of_ballots : ℚ) * prop⌋).toNat := by
  rw [Votekit.plGenerateBloc, List.length_map, List.length_range,
    Votekit.plNumBallotsRace, Votekit.pyInt,
    if_pos (mul_nonneg (Nat.cast_nonneg number_of_ballots) h)]

/-- C3, witness for the amended statement at 3 ballots and proportion 1/2. -/
theorem C3_amended_witness :
    (Votekit.plGenerateBloc (fun _ => ([] : List ℕ)) 3 (1 / 2)).length =
      (⌊(3 : ℚ) * (1 / 2)⌋).toNat :=
  C3_amended (fun _ => ([] : List ℕ)) 3 (1 / 2) (by norm_num)

/-- C4: `PlackettLuce.__init__` performs no validation.  A configuration whose
bloc proportions sum to 11/10 (not 1) and whose preference-interval mapping
is missing bloc `"D"` entirely is accepted without error — construction
succeeds, contradicting the claim that it fails before any sampling. -/
theorem C4_init_accepts_invalid_config :
    (([("R", (7 : ℚ) / 10), ("D", 2 / 5)].map Prod.snd).sum ≠ 1) ∧
      ("D" ∉ ([("R", [((0 : ℕ), (1 : ℚ))])].map Prod.fst)) ∧
      (Votekit.plackettLuceInit [("R", [((0 : ℕ), (1 : ℚ))])]
          [("R", (7 : ℚ) / 10), ("D", 2 / 5)] 5 [0, 1] none).isOk = true := by
  refine ⟨by norm_num, by simp, rfl⟩

/-- C5: `IAC.generate_ballots` enumerates all permutations but draws the
ballot index from the hard-coded `range(6)`.  With 4 candidates there are 24
permutations of full length; the draw-index pool is `[0, …, 5]`, so index 23
(a valid permutation index) can never be drawn — the index does not range
over the whole permutation space (and numpy additionally rejects the call
because the probability vector has length 24 ≠ 6). -/
theorem C5_iac_fixed_index_range :
    (Votekit.permutationsLen 4 [0, 1, 2, 3]).length = 24 ∧
      Votekit.iacDrawIndexPool = List.range 6 ∧
      23 ∉ Votekit.iacDrawIndexPool ∧
      Votekit.iacDrawIndexPool.length ≠
        (Votekit.permutationsLen 4 [0, 1, 2, 3]).length := by
  refine ⟨by decide, rfl, by decide, by decide⟩

/-- C6: for a bloc pairing with crossover rate 1/2 and 10 bloc ballots, the
crossover loop of `AlternatingCrossover.generate_ballots` contributes 5
ballots, and — the method having no loyal-ballot branch — those 5 are the
pairing's entire contribution, not the claimed total of 10 (5 crossover plus
5 loyal).  (In CPython the loop bound `0.5 * 10` is a `float`, which
`range` rejects with a `TypeError` before any ballot is produced.) -/
theorem C6_no_loyal_ballots :
    ((Votekit.acPairBallots (fun _ => ([0, 1] : List ℕ)) (1 / 2) 10).map
        List.length = .ok 5) ∧
      (5 : ℕ) ≠ 10 := by
  constructor
  · have h5 : ((1 : ℚ) / 2) * ((10 : ℕ) : ℚ) = 5 := by norm_num
    rw [Votekit.acPairBallots]
    simp only [h5]
    rw [if_pos (by norm_num)]
    norm_num [Except.map]
    rfl
  · norm_num

/-- C8: in `OneDimSpatial.generate_ballots` every voter position and every
entry of every candidate's position array is deterministically 1 (the normal
draws use standard deviation 0), so each candidate's distance array for each
voter is identically zero: all candidates are equidistant from every voter
and no non-degenerate ascending-distance ranking exists.  (The code moreover
never returns: for two or more candidates, ordering array-valued sort keys
raises a `ValueError`, and the final `self.ballot_pool_to_profile(ballot_pool)`
omits the required `candidates` argument.) -/
theorem C8_degenerate_distances {α : Type} [DecidableEq α]
    (candidates : List α) (number_of_ballots : ℕ) :
    (Votekit.oneDimVoterPositions number_of_ballots).map
        (fun vp => Votekit.oneDimDistance
          (Votekit.oneDimCandidatePosition candidates) vp) =
      List.replicate number_of_ballots
        (List.replicate candidates.length 0) := by
  rw [Votekit.oneDimVoterPositions]
  have hdist : Votekit.oneDimDistance
      (Votekit.oneDimCandidatePosition candidates) 1 =
      List.replicate candidates.length 0 := by
    rw [Votekit.oneDimDistance, Votekit.oneDimCandidatePosition,
      List.map_replicate]
    norm_num
  rw [List.map_replicate, hdist]
